import Mathlib

/-!
Verification of the unbiased sampling engine of the `randutil` repository
against its natural-language specification.

The Go sources are shallowly embedded:
* machine integers become `Nat`/`Int` with explicit `% 2^64` where wrapping
  matters,
* `float64` values produced by the generators become exact rationals (`ℚ`)
  where no transcendental function occurs, and real numbers (`ℝ`) where the
  code calls `math.Log`, `math.Exp`, `math.Sqrt`, `math.Cos` or `math.Pow`,
* the entropy source becomes an explicit stream `ℕ → _` together with a
  stream position that every draw advances, and unbounded rejection loops
  take a fuel argument and return `Option`,
* fallible functions return `Except CoreErr`.
-/

/-- Error sentinels of the `core` and `collection` packages
(`ErrNonPositiveBound`, `ErrMinGreaterThanMax`, ...). -/
inductive CoreErr where
  | nonPositiveBound
  | minGreaterThanMax
  | resultOutOfRange
  | invalidRangeNonPositive
  | negativeLength
  | entropyFailure
  | invalidParam
  | emptyItems
  | weightsMismatch
  | invalidWeights
  | sampleTooLarge
  | invalidN
deriving DecidableEq

/-- `2^64`, one more than the largest `uint64`. -/
def U64 : ℕ := 2 ^ 64

/-- The rejection limit computed by `Generator.Uint64n`:
`maxUint = ^uint64(0); limit = maxUint - (maxUint % n)`. -/
def uint64nLimit (n : ℕ) : ℕ := (U64 - 1) - (U64 - 1) % n

/-- The rejection loop of `Generator.Uint64n`: redraw while the raw draw is
at or above the limit, return `u % n` for the first accepted draw, together
with the stream position after the accepted draw.  `fuel` bounds the number
of redraws; `none` models a run that has not yet accepted. -/
def uint64nLoop (n : ℕ) (us : ℕ → ℕ) : ℕ → ℕ → Option (ℕ × ℕ)
  | 0, _ => none
  | fuel + 1, i =>
    if us i < uint64nLimit n then some (us i % n, i + 1)
    else uint64nLoop n us fuel (i + 1)

/-- `Generator.Uint64n n`: error on `n == 0`, otherwise the rejection loop. -/
def uint64n (n : ℕ) (us : ℕ → ℕ) (i fuel : ℕ) :
    Except CoreErr (Option (ℕ × ℕ)) :=
  if n = 0 then .error .nonPositiveBound
  else .ok (uint64nLoop n us fuel i)

/-- Modelled from the claim's words (not from the source): the limit the
claim prescribes, `2^64 - (2^64 mod n)`. -/
def specUint64nLimit (n : ℕ) : ℕ := U64 - U64 % n

/-- Modelled from the claim's words: the rejection loop using the claim's
limit `2^64 - (2^64 mod n)` instead of the code's
`(2^64-1) - ((2^64-1) mod n)`. -/
def specUint64nLoop (n : ℕ) (us : ℕ → ℕ) : ℕ → ℕ → Option (ℕ × ℕ)
  | 0, _ => none
  | fuel + 1, i =>
    if us i < specUint64nLimit n then some (us i % n, i + 1)
    else specUint64nLoop n us fuel (i + 1)

/-- A concrete entropy stream whose first 64-bit draw is the all-ones word
`2^64 - 1` and whose later draws are `0`. -/
def exStreamC1 : ℕ → ℕ := fun j => if j = 0 then U64 - 1 else 0

/-- The conjunction of properties establishing the (amended) rejection
scheme of `Generator.Uint64n` for a bound `n`:
the code's limit is `(2^64-1) - ((2^64-1) mod n)` and is divisible by `n`;
every residue below `n` is hit by exactly `limit / n` accepted raw draws
(exact uniformity); and any successful run accepts the first draw below the
limit, rejecting all earlier draws, and returns that draw modulo `n`,
a value below `n`. -/
def uint64nRejectionProp (n : ℕ) : Prop :=
  (uint64nLimit n % n = 0) ∧
  (∀ v, v < n →
    ((Finset.range (uint64nLimit n)).filter (fun u => u % n = v)).card =
      uint64nLimit n / n) ∧
  (∀ us i fuel r j, uint64n n us i fuel = .ok (some (r, j)) →
    r < n ∧ i < j ∧ us (j - 1) < uint64nLimit n ∧ r = us (j - 1) % n ∧
    ∀ t, i ≤ t → t < j - 1 → uint64nLimit n ≤ us t)

lemma uint64nLimit_eq_mul (n : ℕ) (_hn : 0 < n) :
    uint64nLimit n = n * ((U64 - 1) / n) := by
  have h := Nat.div_add_mod (U64 - 1) n
  unfold uint64nLimit
  omega

lemma filter_mod_card (n q v : ℕ) (hn : 0 < n) (hv : v < n) :
    ((Finset.range (n * q)).filter (fun u => u % n = v)).card = q := by
  have himg :
      (Finset.range (n * q)).filter (fun u => u % n = v) =
        (Finset.range q).image (fun t => n * t + v) := by
    ext u
    simp only [Finset.mem_filter, Finset.mem_range, Finset.mem_image]
    constructor
    · rintro ⟨hlt, hmod⟩
      refine ⟨u / n, ?_, ?_⟩
      · exact Nat.div_lt_of_lt_mul hlt
      · have := Nat.div_add_mod u n
        omega
    · rintro ⟨t, ht, rfl⟩
      constructor
      · have h1 : n * (t + 1) ≤ n * q := Nat.mul_le_mul_left n ht
        have h2 : n * (t + 1) = n * t + n := Nat.mul_succ n t
        omega
      · simp [Nat.mul_add_mod, Nat.mod_eq_of_lt hv]
  rw [himg, Finset.card_image_of_injective _ (by
    intro a b hab
    simp only at hab
    have := Nat.eq_of_mul_eq_mul_left hn (by omega : n * a = n * b)
    exact this), Finset.card_range]

lemma uint64nLoop_char (n : ℕ) (us : ℕ → ℕ) :
    ∀ fuel i r j, uint64nLoop n us fuel i = some (r, j) →
      i < j ∧ us (j - 1) < uint64nLimit n ∧ r = us (j - 1) % n ∧
      ∀ t, i ≤ t → t < j - 1 → uint64nLimit n ≤ us t := by
  intro fuel
  induction fuel with
  | zero => intro i r j h; simp [uint64nLoop] at h
  | succ f ih =>
    intro i r j h
    unfold uint64nLoop at h
    by_cases hc : us i < uint64nLimit n
    · rw [if_pos hc] at h
      have h' : us i % n = r ∧ i + 1 = j := by
        simpa [Prod.ext_iff] using h
      obtain ⟨rfl, rfl⟩ := h'
      refine ⟨by omega, by simpa using hc, by simp, ?_⟩
      intro t ht1 ht2
      omega
    · rw [if_neg hc] at h
      obtain ⟨h1, h2, h3, h4⟩ := ih (i + 1) r j h
      refine ⟨by omega, h2, h3, ?_⟩
      intro t ht1 ht2
      rcases Nat.eq_or_lt_of_le ht1 with rfl | htlt
      · omega
      · exact h4 t (by omega) ht2

/-- C1 (counterexample): with bound `n = 2` the claim's limit
`2^64 - (2^64 mod 2) = 2^64` accepts every raw draw, so on a stream whose
first draw is the all-ones word `2^64 - 1` the claim's scheme accepts it
and returns `1` after one draw; the code's limit is `2^64 - 2`, so the code
rejects that draw and returns `0` from the second draw.  The two schemes
disagree both in the returned value and in the number of draws consumed,
and the claim's per-value count `limit/n = 2^63` differs from the code's
`2^63 - 1`. -/
theorem uint64n_limit_counterexample :
    uint64n 2 exStreamC1 0 2 = .ok (some (0, 2)) ∧
    specUint64nLoop 2 exStreamC1 2 0 = some (1, 1) ∧
    uint64nLimit 2 ≠ specUint64nLimit 2 ∧
    uint64nLimit 2 / 2 ≠ specUint64nLimit 2 / 2 := by
  refine ⟨rfl, rfl, by decide, by decide⟩

/-- C1 (amended): `Generator.Uint64n n` for `n > 0` follows the rejection
scheme with the code's limit `(2^64-1) - ((2^64-1) mod n)` (which equals
`2^64 - (2^64 mod n)` except when `n` divides `2^64`): the limit is a
multiple of `n`, each value of `[0, n)` is produced by exactly `limit / n`
accepted raw draws, every raw draw at or above the limit is redrawn, and
the first accepted draw `u` yields `u % n < n`. -/
theorem uint64n_rejection_uniformity (n : ℕ) (hn : 0 < n) :
    uint64nRejectionProp n := by
  have hmul := uint64nLimit_eq_mul n hn
  refine ⟨?_, ?_, ?_⟩
  · rw [hmul]; simp [Nat.mul_mod_right]
  · intro v hv
    rw [hmul, filter_mod_card n _ v hn hv, Nat.mul_div_cancel_left _ hn]
  · intro us i fuel r j h
    unfold uint64n at h
    rw [if_neg (by omega)] at h
    have h2 : uint64nLoop n us fuel i = some (r, j) := by
      simpa using h
    obtain ⟨h1, hlt, hmod, hrej⟩ := uint64nLoop_char n us fuel i r j h2
    exact ⟨hmod ▸ Nat.mod_lt _ hn, h1, hlt, hmod, hrej⟩

/-- C1 (witness): the amended rejection property at the concrete bound 2. -/
theorem uint64n_rejection_uniformity_witness :
    0 < 2 ∧ uint64nRejectionProp 2 :=
  ⟨by decide, uint64n_rejection_uniformity 2 (by decide)⟩

/-- The little-endian 64-bit integer built by `binary.LittleEndian.Uint64`
from an 8-byte buffer: byte 0 is least significant. -/
def leUint64 : List ℕ → ℕ
  | [] => 0
  | b :: bs => b + 256 * leUint64 bs

/-- `Generator.Float64`: interpret the 8 drawn bytes as a little-endian
`uint64`, shift right by 11 to keep 53 bits, divide by `2^53`.  Every value
the construction can produce is a dyadic rational `v / 2^53` with
`v < 2^53`, which `float64` represents exactly, so the rational result is
exactly the `float64` the code returns. -/
def float64OfBytes (b : List ℕ) : ℚ :=
  ((leUint64 b / 2 ^ 11 : ℕ) : ℚ) / 2 ^ 53

/-- `Generator.Bernoulli p` of the `dist` package on the drawn uniform `u`:
validate `p ∈ [0,1]` (the `math.IsNaN` guard has no rational counterpart),
then return `u < p`. -/
def bernoulliTrial (p u : ℚ) : Except CoreErr Bool :=
  if p < 0 ∨ 1 < p then .error .invalidParam
  else .ok (decide (u < p))

lemma leUint64_lt (b : List ℕ) (hb : ∀ x ∈ b, x < 256) :
    leUint64 b < 256 ^ b.length := by
  induction b with
  | nil => simp [leUint64]
  | cons x bs ih =>
    have hx : x < 256 := hb x (List.mem_cons_self x bs)
    have hbs : leUint64 bs < 256 ^ bs.length :=
      ih (fun y hy => hb y (List.mem_cons_of_mem x hy))
    simp only [leUint64, List.length_cons, pow_succ]
    calc x + 256 * leUint64 bs
        ≤ 255 + 256 * (256 ^ bs.length - 1) := by
          have : leUint64 bs ≤ 256 ^ bs.length - 1 := by omega
          have h2 : 256 * leUint64 bs ≤ 256 * (256 ^ bs.length - 1) :=
            Nat.mul_le_mul_left 256 this
          omega
      _ < 256 ^ bs.length * 256 := by
          have hpos : 1 ≤ 256 ^ bs.length := Nat.one_le_pow _ _ (by omega)
          have : 256 * (256 ^ bs.length - 1) = 256 * 256 ^ bs.length - 256 :=
            by omega
          rw [this]
          have : 256 ≤ 256 * 256 ^ bs.length :=
            Nat.le_mul_of_pos_right 256 (by omega)
          omega

lemma float64OfBytes_mem_Ico (b : List ℕ) (hlen : b.length = 8)
    (hb : ∀ x ∈ b, x < 256) :
    0 ≤ float64OfBytes b ∧ float64OfBytes b < 1 := by
  have hlt : leUint64 b < 2 ^ 64 := by
    have := leUint64_lt b hb
    rw [hlen] at this
    calc leUint64 b < 256 ^ 8 := this
      _ = 2 ^ 64 := by norm_num
  have hsh : leUint64 b / 2 ^ 11 < 2 ^ 53 := by
    apply Nat.div_lt_of_lt_mul
    calc leUint64 b < 2 ^ 64 := hlt
      _ = 2 ^ 11 * 2 ^ 53 := by norm_num
  constructor
  · unfold float64OfBytes
    positivity
  · unfold float64OfBytes
    rw [div_lt_one (by positivity)]
    calc ((leUint64 b / 2 ^ 11 : ℕ) : ℚ) < ((2 ^ 53 : ℕ) : ℚ) := by
          exact_mod_cast hsh
      _ = 2 ^ 53 := by norm_num

/-- C7: `Generator.Float64` returns the 53 high-order bits of the 8-byte
little-endian draw divided by `2^53`; for every valid 8-byte draw the
result lies in `[0, 1)` and in particular never equals `1`. -/
theorem float64_unit_interval (b : List ℕ) (hlen : b.length = 8)
    (hb : ∀ x ∈ b, x < 256) :
    float64OfBytes b = ((leUint64 b / 2 ^ 11 : ℕ) : ℚ) / 2 ^ 53 ∧
    0 ≤ float64OfBytes b ∧ float64OfBytes b < 1 ∧ float64OfBytes b ≠ 1 := by
  obtain ⟨h0, h1⟩ := float64OfBytes_mem_Ico b hlen hb
  exact ⟨rfl, h0, h1, ne_of_lt h1⟩

/-- C7 (witness): the unit-interval property at the all-ones byte buffer. -/
theorem float64_unit_interval_witness :
    ([255, 255, 255, 255, 255, 255, 255, 255] : List ℕ).length = 8 ∧
    (∀ x ∈ ([255, 255, 255, 255, 255, 255, 255, 255] : List ℕ), x < 256) ∧
    (float64OfBytes [255, 255, 255, 255, 255, 255, 255, 255] =
      ((leUint64 [255, 255, 255, 255, 255, 255, 255, 255] / 2 ^ 11 : ℕ) : ℚ)
        / 2 ^ 53 ∧
     0 ≤ float64OfBytes [255, 255, 255, 255, 255, 255, 255, 255] ∧
     float64OfBytes [255, 255, 255, 255, 255, 255, 255, 255] < 1 ∧
     float64OfBytes [255, 255, 255, 255, 255, 255, 255, 255] ≠ 1) :=
  ⟨by decide, by decide,
    float64_unit_interval _ (by decide) (by decide)⟩

/-- C10: for every valid 8-byte draw, `Bernoulli 0` returns `false` and
`Bernoulli 1` returns `true`: the drawn uniform `u = Float64` satisfies
`0 ≤ u < 1` and the comparison `u < p` is strict, so `p = 0` is never met
and `p = 1` always is. -/
theorem bernoulliTrial_extreme_probabilities (b : List ℕ) (hlen : b.length = 8)
    (hb : ∀ x ∈ b, x < 256) :
    bernoulliTrial 0 (float64OfBytes b) = .ok false ∧
    bernoulliTrial 1 (float64OfBytes b) = .ok true := by
  obtain ⟨h0, h1⟩ := float64OfBytes_mem_Ico b hlen hb
  constructor
  · unfold bernoulliTrial
    rw [if_neg (by norm_num)]
    simp [not_lt.mpr h0]
  · unfold bernoulliTrial
    rw [if_neg (by norm_num)]
    simp [h1]

/-- C10 (witness): the extreme-probability behaviour at the all-zero
byte buffer, whose `Float64` value is `0`. -/
theorem bernoulliTrial_extreme_probabilities_witness :
    ([0, 0, 0, 0, 0, 0, 0, 0] : List ℕ).length = 8 ∧
    (∀ x ∈ ([0, 0, 0, 0, 0, 0, 0, 0] : List ℕ), x < 256) ∧
    (bernoulliTrial 0 (float64OfBytes [0, 0, 0, 0, 0, 0, 0, 0]) = .ok false ∧
     bernoulliTrial 1 (float64OfBytes [0, 0, 0, 0, 0, 0, 0, 0]) = .ok true) :=
  ⟨by decide, by decide,
    bernoulliTrial_extreme_probabilities _ (by decide) (by decide)⟩

/-- The outcome of one `io.ReadFull` attempt against the entropy source:
the bytes actually written into the buffer (a prefix, shorter than the
request when the read fails part-way) and, on failure, the error. -/
def EntropyRead := ℕ → List ℕ × Option CoreErr

/-- The buffer contents after `io.ReadFull` wrote `bs` into a buffer that
previously held `buf`: the written prefix followed by the untouched tail. -/
def overwrite (buf bs : List ℕ) : List ℕ :=
  (bs ++ buf.drop bs.length).take buf.length

/-- `Generator.Fill` of the `core` package: empty buffers return at once
without touching the source; otherwise read the full buffer, and on error
run the `for i := range b { b[i] = 0 }` loop over the (possibly partially
overwritten) buffer before returning the error. -/
def fill (buf : List ℕ) (read : EntropyRead) : List ℕ × Option CoreErr :=
  if buf.length = 0 then (buf, none)
  else
    match read buf.length with
    | (bs, none) => (overwrite buf bs, none)
    | (bs, some e) => ((overwrite buf bs).map (fun _ => 0), some e)

/-- `Generator.Bytes` of the `core` package: reject negative lengths, make
an `n`-byte buffer, fill it, and on error return no buffer at all. -/
def bytesGen (n : ℤ) (read : EntropyRead) : Except CoreErr (List ℕ) :=
  if n < 0 then .error .negativeLength
  else
    match fill (List.replicate n.toNat 0) read with
    | (buf, none) => .ok buf
    | (_, some e) => .error e

lemma overwrite_length (buf bs : List ℕ) :
    (overwrite buf bs).length = buf.length := by
  unfold overwrite
  rw [List.length_take, List.length_append, List.length_drop]
  omega

/-- C9: if the underlying entropy read fails inside `Generator.Fill`, every
byte of the destination buffer is zero when the error is returned — whatever
partial prefix the failed read had deposited — and `Generator.Bytes`
surfaces the same error with no buffer, so no partially-filled content is
observable on the error path. -/
theorem fill_zeroes_on_error (buf bs : List ℕ) (e : CoreErr)
    (read : EntropyRead) (hread : read buf.length = (bs, some e)) :
    (buf.length ≠ 0 →
      fill buf read = (List.replicate buf.length 0, some e)) ∧
    (∀ n : ℤ, 0 < n → n.toNat = buf.length →
      bytesGen n read = .error e) := by
  have hfill : buf.length ≠ 0 →
      fill buf read = (List.replicate buf.length 0, some e) := by
    intro hne
    unfold fill
    rw [if_neg hne, hread]
    have hmap : (overwrite buf bs).map (fun _ => (0 : ℕ)) =
        List.replicate buf.length 0 := by
      simp [List.map_const', overwrite_length]
    simp [hmap]
  refine ⟨hfill, ?_⟩
  intro n hn hnat
  unfold bytesGen
  rw [if_neg (by omega)]
  have hrep : (List.replicate n.toNat (0 : ℕ)).length = buf.length := by
    rw [List.length_replicate, hnat]
  have : fill (List.replicate n.toNat 0) read =
      (List.replicate buf.length 0, some e) := by
    unfold fill
    rw [if_neg (by omega), hrep, hread]
    have hmap : (overwrite (List.replicate n.toNat 0) bs).map
        (fun _ => (0 : ℕ)) = List.replicate buf.length 0 := by
      simp [List.map_const', overwrite_length, hrep]
    simp [hmap]
  rw [this]

/-- A concrete failing entropy source for the C9 witness: it writes one
byte `42` and then reports an I/O failure. -/
def exFailingRead : EntropyRead := fun _ => ([42], some .entropyFailure)

/-- C9 (witness): the zeroing property at a concrete three-byte buffer and
the one-byte-then-fail source. -/
theorem fill_zeroes_on_error_witness :
    exFailingRead ([7, 7, 7] : List ℕ).length = ([42], some .entropyFailure) ∧
    ((([7, 7, 7] : List ℕ).length ≠ 0 →
       fill [7, 7, 7] exFailingRead =
         (List.replicate ([7, 7, 7] : List ℕ).length 0,
           some .entropyFailure)) ∧
     (∀ n : ℤ, 0 < n → n.toNat = ([7, 7, 7] : List ℕ).length →
       bytesGen n exFailingRead = .error .entropyFailure)) :=
  ⟨rfl, fill_zeroes_on_error [7, 7, 7] [42] .entropyFailure exFailingRead rfl⟩

/-- Signed 64-bit wrap-around: the value a Go `int64` holds after an
operation whose mathematical result is `x`. -/
def wrap64 (x : ℤ) : ℤ := (x + 2 ^ 63) % 2 ^ 64 - 2 ^ 63

/-- `absInt64ToUint64`: two's-complement absolute value of an `int64`
(`uint64(^v) + 1` for negative `v`). -/
def absInt64ToUint64 (v : ℤ) : ℕ :=
  if 0 ≤ v then v.toNat else (-v).toNat

/-- `int64ToUint64`: convert a non-negative `int64` to `uint64`; negative
values report `ErrResultOutOfRange`, which `spanInt64` turns into `ok ==
false`. -/
def int64ToUint64E (n : ℤ) : Option ℕ :=
  if n < 0 then none else some n.toNat

/-- `spanInt64` of the `core` package: the inclusive span `max - min + 1`
as a `uint64`, or `none` when the pair is invalid or the span does not fit.
The subtractions the code performs on `int64` values are modelled with
`wrap64`, the final `uint64` addition with `% 2^64`. -/
def spanInt64 (mi ma : ℤ) : Option ℕ :=
  if ma < mi then none
  else if 0 ≤ mi then
    let diff := wrap64 (ma - mi)
    if diff < 0 then none else some (diff.toNat + 1)
  else if ma < 0 then
    let diff := wrap64 (ma - mi)
    if diff < 0 then none else some (diff.toNat + 1)
  else
    let absMin := absInt64ToUint64 mi
    match int64ToUint64E ma with
    | none => none
    | some maxU =>
      if U64 - 1 - maxU - 1 < absMin then none
      else some ((absMin + maxU + 1) % U64)

/-- The `big.Int` fallback path of `Generator.Int64Range`: `crypto/rand.Int`
is Go-standard-library code outside this repository, so its draw is an
oracle `bigDraw` (the caller's hypotheses say it lies in `[0, max-min+1)`
when it succeeds).  The `bigResult.BitLen() > 63` guard holds exactly when
`|result| ≥ 2^63`. -/
def int64RangeBig (mi ma : ℤ) (bigDraw : Except CoreErr ℤ) :
    Except CoreErr (Option ℤ) :=
  let diff := ma - mi + 1
  if diff ≤ 0 then .error .invalidRangeNonPositive
  else
    match bigDraw with
    | .error e => .error e
    | .ok nd =>
      let res := nd + mi
      if res ≤ -(2 ^ 63) ∨ 2 ^ 63 ≤ res then .error .resultOutOfRange
      else .ok (some res)

/-- `Generator.Int64Range`: validate `min ≤ max`; when `spanInt64` yields a
span in `(0, 2^63]` draw with `Uint64n` and offset by `min`, otherwise fall
back to the `big.Int` path. -/
def int64Range (mi ma : ℤ) (us : ℕ → ℕ) (fuel : ℕ)
    (bigDraw : Except CoreErr ℤ) : Except CoreErr (Option ℤ) :=
  if ma < mi then .error .minGreaterThanMax
  else
    match spanInt64 mi ma with
    | some span =>
      if 0 < span ∧ span ≤ 2 ^ 63 then
        match uint64n span us 0 fuel with
        | .error e => .error e
        | .ok none => .ok none
        | .ok (some (u, _)) =>
          if 2 ^ 63 - 1 < u then .error .resultOutOfRange
          else
            let res := mi + (u : ℤ)
            if res < mi ∨ ma < res then .error .resultOutOfRange
            else .ok (some res)
      else int64RangeBig mi ma bigDraw
    | none => int64RangeBig mi ma bigDraw

/-- C2 (code bug): on the full signed domain `min = -2^63`,
`max = 2^63 - 1`, `spanInt64` reports the span as unrepresentable, so the
code takes the `big.Int` path; when the (successful) draw is `0` the
mathematical result is `min = -2^63` — a representable `int64` inside
`[min, max]` — yet the `BitLen() > 63` guard rejects it and the call
returns `ErrResultOutOfRange` instead of the in-range value, contradicting
the function's own contract.  (`min > max` does return the dedicated
error, as the claim states.) -/
theorem int64Range_fullDomain_min_draw_bug :
    spanInt64 (-(2 ^ 63)) (2 ^ 63 - 1) = none ∧
    int64Range (-(2 ^ 63)) (2 ^ 63 - 1) (fun _ => 0) 1 (.ok 0) =
      .error .resultOutOfRange ∧
    (-(2 ^ 63) : ℤ) ≤ 0 + -(2 ^ 63) ∧ (0 : ℤ) + -(2 ^ 63) ≤ 2 ^ 63 - 1 ∧
    int64Range 1 0 (fun _ => 0) 1 (.ok 0) = .error .minGreaterThanMax := by
  refine ⟨rfl, rfl, by decide, by decide, rfl⟩

/-- The cumulative linear scan shared by `Categorical` and
`WeightedChoice`: walk the weights accumulating `acc += w` and return the
first index at which `target < acc`, or `none` when the walk exhausts. -/
def scanFrom (t acc : ℚ) : List ℚ → Option ℕ
  | [] => none
  | w :: ws =>
    if t < acc + w then some 0
    else (scanFrom t (acc + w) ws).map (· + 1)

/-- The backwards fallback walk of `WeightedChoice`: the last index whose
weight is positive. -/
def lastPosIdx : List ℚ → Option ℕ
  | [] => none
  | w :: ws =>
    match lastPosIdx ws with
    | some i => some (i + 1)
    | none => if 0 < w then some 0 else none

/-- The index `Generator.Categorical` produces from a scaled target: the
scan's index, or `len(weights) - 1` when the scan exhausts.  Note the
fallback is the final index unconditionally, not the last positive-weight
index. -/
def categoricalCore (t : ℚ) (ws : List ℚ) : ℕ :=
  match scanFrom t 0 ws with
  | some i => i
  | none => ws.length - 1

/-- `Generator.Categorical` on the drawn uniform `u`: validate the weights
(`math.IsNaN` has no rational counterpart), scale `u` by the sum, scan. -/
def categorical (ws : List ℚ) (u : ℚ) : Except CoreErr ℕ :=
  if ∃ w ∈ ws, w < 0 then .error .invalidWeights
  else if ws.sum = 0 then .error .invalidWeights
  else .ok (categoricalCore (u * ws.sum) ws)

/-- The scan-plus-fallback core of `collection.WeightedChoice`: the scan's
index, else the last positive-weight index, else the invalid-weights
error. -/
def wcCore (t : ℚ) (ws : List ℚ) : Except CoreErr ℕ :=
  match scanFrom t 0 ws with
  | some i => .ok i
  | none =>
    match lastPosIdx ws with
    | some i => .ok i
    | none => .error .invalidWeights

/-- `collection.WeightedChoice` on the drawn uniform `u`, at the level of
the selected index (`nItems` is `len(items)`; the `math.IsInf`/`IsNaN`
guards have no rational counterpart). -/
def weightedChoiceIdx (nItems : ℕ) (ws : List ℚ) (u : ℚ) :
    Except CoreErr ℕ :=
  if nItems = 0 then .error .emptyItems
  else if nItems ≠ ws.length then .error .weightsMismatch
  else if ∃ w ∈ ws, w < 0 then .error .invalidWeights
  else if ws.sum ≤ 0 then .error .invalidWeights
  else wcCore (u * ws.sum) ws

/-- Modelled from the claim's words (not from the source): whenever the
cumulative walk exhausts, the fallback — in `Categorical` as well as in
`WeightedChoice` — returns the last index with positive weight. -/
def specCategoricalFallbackPositive : Prop :=
  ∀ (ws : List ℚ) (t : ℚ), scanFrom t 0 ws = none →
    ∃ i, categoricalCore t ws = i ∧ lastPosIdx ws = some i

lemma scanFrom_some_pos :
    ∀ (ws : List ℚ) (acc t : ℚ) (i : ℕ), acc ≤ t →
      scanFrom t acc ws = some i → ∃ w, ws[i]? = some w ∧ 0 < w := by
  intro ws
  induction ws with
  | nil => intro acc t i _ h; simp [scanFrom] at h
  | cons w ws ih =>
    intro acc t i hacc h
    unfold scanFrom at h
    by_cases hc : t < acc + w
    · rw [if_pos hc] at h
      have : i = 0 := by simpa using h.symm
      subst this
      exact ⟨w, by simp, by linarith⟩
    · rw [if_neg hc] at h
      obtain ⟨j, hj, rfl⟩ := Option.map_eq_some'.mp h
      obtain ⟨w', hw', hpos⟩ := ih (acc + w) t j (by linarith [not_lt.mp hc]) hj
      exact ⟨w', by simpa using hw', hpos⟩

lemma scanFrom_total :
    ∀ (ws : List ℚ) (acc t : ℚ), acc ≤ t → t < acc + ws.sum →
      (scanFrom t acc ws).isSome := by
  intro ws
  induction ws with
  | nil => intro acc t h1 h2; simp at h2; linarith
  | cons w ws ih =>
    intro acc t h1 h2
    unfold scanFrom
    by_cases hc : t < acc + w
    · simp [hc]
    · rw [if_neg hc]
      rw [List.sum_cons] at h2
      have := ih (acc + w) t (not_lt.mp hc) (by linarith)
      simpa using this

lemma lastPosIdx_pos :
    ∀ (ws : List ℚ) (i : ℕ), lastPosIdx ws = some i →
      ∃ w, ws[i]? = some w ∧ 0 < w := by
  intro ws
  induction ws with
  | nil => intro i h; simp [lastPosIdx] at h
  | cons w ws ih =>
    intro i h
    unfold lastPosIdx at h
    cases hrec : lastPosIdx ws with
    | some j =>
      rw [hrec] at h
      have : j + 1 = i := by simpa using h
      subst this
      obtain ⟨w', hw', hpos⟩ := ih j hrec
      exact ⟨w', by simpa using hw', hpos⟩
    | none =>
      rw [hrec] at h
      by_cases hw : 0 < w
      · rw [if_pos hw] at h
        have : i = 0 := by simpa using h.symm
        subst this
        exact ⟨w, by simp, hw⟩
      · rw [if_neg hw] at h
        simp at h

/-- C6 (counterexample): on weights `[1, 0]` with a scaled target of `1`
the cumulative walk exhausts (`1 < 1` fails at both entries), and
`Categorical`'s fallback `len(weights) - 1` selects index `1` — the
zero-weight entry — whereas the last index with positive weight is `0`.
The claim's fallback description is therefore false for `Categorical`. -/
theorem categorical_fallback_counterexample :
    ¬ specCategoricalFallbackPositive := by
  intro h
  have hnone : scanFrom 1 0 [1, 0] = none := by
    norm_num [scanFrom]
  obtain ⟨i, h1, h2⟩ := h [1, 0] 1 hnone
  have hcore : categoricalCore 1 [1, 0] = 1 := by
    unfold categoricalCore
    rw [hnone]
    rfl
  have hi : i = 1 := by omega
  subst hi
  have hlast : lastPosIdx [1, 0] = some 0 := by
    norm_num [lastPosIdx]
  rw [hlast] at h2
  simp at h2

/-- The (amended) positive-selection properties of `Categorical` and
`WeightedChoice`: under exact arithmetic, for any drawn uniform
`u ∈ [0,1)` and valid weights, both return an index whose weight is
positive (the scan cannot stop at a zero-weight entry and cannot exhaust);
if the scan did exhaust, `WeightedChoice`'s fallback would return the last
positive-weight index but `Categorical`'s fallback returns the final index
regardless of its weight. -/
def categoricalPositiveProp : Prop :=
  (∀ (ws : List ℚ) (u : ℚ), 0 ≤ u → u < 1 → (∀ w ∈ ws, 0 ≤ w) →
    ws.sum ≠ 0 →
    ∃ i w, categorical ws u = .ok i ∧ ws[i]? = some w ∧ 0 < w) ∧
  (∀ (ws : List ℚ) (u : ℚ), 0 ≤ u → u < 1 → (∀ w ∈ ws, 0 ≤ w) →
    0 < ws.sum →
    ∃ i w, weightedChoiceIdx ws.length ws u = .ok i ∧
      ws[i]? = some w ∧ 0 < w) ∧
  (∀ (ws : List ℚ) (t : ℚ), scanFrom t 0 ws = none →
    categoricalCore t ws = ws.length - 1) ∧
  (∀ (ws : List ℚ) (t : ℚ) (i : ℕ), scanFrom t 0 ws = none →
    lastPosIdx ws = some i →
    wcCore t ws = .ok i ∧ ∃ w, ws[i]? = some w ∧ 0 < w)

/-- C6 (amended): the positive-selection properties hold. -/
theorem categorical_weighted_positive_selection :
    categoricalPositiveProp := by
  have hscan : ∀ (ws : List ℚ) (u : ℚ), 0 ≤ u → u < 1 →
      (∀ w ∈ ws, 0 ≤ w) → 0 < ws.sum →
      ∃ i, scanFrom (u * ws.sum) 0 ws = some i ∧
        ∃ w, ws[i]? = some w ∧ 0 < w := by
    intro ws u hu0 hu1 _hw hsum
    have ht0 : 0 ≤ u * ws.sum := mul_nonneg hu0 (le_of_lt hsum)
    have ht1 : u * ws.sum < 0 + ws.sum := by
      have := mul_lt_mul_of_pos_right hu1 hsum
      linarith
    have hsome := scanFrom_total ws 0 (u * ws.sum) ht0 ht1
    obtain ⟨i, hi⟩ := Option.isSome_iff_exists.mp hsome
    exact ⟨i, hi, scanFrom_some_pos ws 0 (u * ws.sum) i ht0 hi⟩
  refine ⟨?_, ?_, ?_, ?_⟩
  · intro ws u hu0 hu1 hw hsum
    have hpos : 0 < ws.sum :=
      lt_of_le_of_ne (List.sum_nonneg hw) (Ne.symm hsum)
    obtain ⟨i, hi, w, hwi, hwpos⟩ := hscan ws u hu0 hu1 hw hpos
    refine ⟨i, w, ?_, hwi, hwpos⟩
    have hnoneg : ¬ ∃ x ∈ ws, x < 0 := by
      push_neg
      intro x hx
      exact hw x hx
    unfold categorical
    rw [if_neg hnoneg, if_neg hsum]
    unfold categoricalCore
    rw [hi]
  · intro ws u hu0 hu1 hw hsum
    obtain ⟨i, hi, w, hwi, hwpos⟩ := hscan ws u hu0 hu1 hw hsum
    have hne : ws.length ≠ 0 := by
      intro hlen
      rw [List.length_eq_zero.mp hlen] at hsum
      simp at hsum
    refine ⟨i, w, ?_, hwi, hwpos⟩
    have hnoneg : ¬ ∃ x ∈ ws, x < 0 := by
      push_neg
      intro x hx
      exact hw x hx
    unfold weightedChoiceIdx
    rw [if_neg hne, if_neg (by omega), if_neg hnoneg,
      if_neg (not_le.mpr hsum)]
    unfold wcCore
    rw [hi]
  · intro ws t h
    unfold categoricalCore
    rw [h]
  · intro ws t i hnone hlast
    refine ⟨?_, lastPosIdx_pos ws i hlast⟩
    unfold wcCore
    rw [hnone, hlast]

/-- C6 (witness): the positive-selection property applied at weights
`[1, 0]` with the concrete uniform `1/2`: `Categorical` picks index `0`,
whose weight `1` is positive. -/
theorem categorical_weighted_positive_selection_witness :
    ∃ i w, categorical [1, 0] (1 / 2) = .ok i ∧
      ([1, 0] : List ℚ)[i]? = some w ∧ 0 < w :=
  categorical_weighted_positive_selection.1 [1, 0] (1 / 2) (by norm_num)
    (by norm_num)
    (by intro w hw; simp at hw; rcases hw with rfl | rfl <;> norm_num)
    (by norm_num)

/-- The running product of `m` fresh uniforms starting at stream
position `i`. -/
noncomputable def partialProd (us : ℕ → ℝ) (i : ℕ) : ℕ → ℝ
  | 0 => 1
  | m + 1 => partialProd us i m * us (i + m)

/-- The loop of `Generator.Poisson` (Knuth's algorithm): starting from
`k = 0, p = 1.0`, draw while `p > L`, multiplying `p` by the fresh uniform
and incrementing `k`; on exit return `k - 1` and the stream position. -/
noncomputable def poissonLoop (L : ℝ) (us : ℕ → ℝ) :
    ℕ → ℕ → ℕ → ℝ → Option (ℕ × ℕ)
  | 0, _, _, _ => none
  | fuel + 1, k, i, p =>
    if p ≤ L then some (k - 1, i)
    else poissonLoop L us fuel (k + 1) (i + 1) (p * us i)

/-- `Generator.Poisson`: validate `lambda > 0`, then run Knuth's
product-of-uniforms loop against `L = e^-lambda`.  This is the whole
function: there is no second branch for any range of `lambda`. -/
noncomputable def poisson (lam : ℝ) (us : ℕ → ℝ) (i fuel : ℕ) :
    Except CoreErr (Option (ℕ × ℕ)) :=
  if lam ≤ 0 then .error .invalidParam
  else .ok (poissonLoop (Real.exp (-lam)) us fuel 0 i 1)

lemma partialProd_shift (us : ℕ → ℝ) (i : ℕ) :
    ∀ m, partialProd us i (m + 1) = us i * partialProd us (i + 1) m := by
  intro m
  induction m with
  | zero => simp [partialProd]
  | succ t ih =>
    have harg : i + (t + 1) = (i + 1) + t := by omega
    calc partialProd us i (t + 2)
        = partialProd us i (t + 1) * us (i + (t + 1)) := rfl
      _ = us i * partialProd us (i + 1) t * us ((i + 1) + t) := by
          rw [ih, harg]
      _ = us i * partialProd us (i + 1) (t + 1) := by
          rw [partialProd]; ring

lemma poissonLoop_char (L : ℝ) (us : ℕ → ℝ) :
    ∀ fuel k i p r j, poissonLoop L us fuel k i p = some (r, j) →
      ∃ m, j = i + m ∧ r = k + m - 1 ∧ p * partialProd us i m ≤ L ∧
        ∀ t, t < m → L < p * partialProd us i t := by
  intro fuel
  induction fuel with
  | zero => intro k i p r j h; simp [poissonLoop] at h
  | succ f ih =>
    intro k i p r j h
    unfold poissonLoop at h
    by_cases hc : p ≤ L
    · rw [if_pos hc] at h
      have h' : k - 1 = r ∧ i = j := by simpa [Prod.ext_iff] using h
      obtain ⟨rfl, rfl⟩ := h'
      exact ⟨0, by omega, by omega, by simpa [partialProd] using hc,
        fun t ht => absurd ht (by omega)⟩
    · rw [if_neg hc] at h
      obtain ⟨m, hj, hr, hle, hgt⟩ := ih (k + 1) (i + 1) (p * us i) r j h
      refine ⟨m + 1, by omega, by omega, ?_, ?_⟩
      · rw [partialProd_shift]
        calc p * (us i * partialProd us (i + 1) m)
            = p * us i * partialProd us (i + 1) m := by ring
          _ ≤ L := hle
      · intro t ht
        match t with
        | 0 => simpa [partialProd] using not_le.mp hc
        | t' + 1 =>
          rw [partialProd_shift]
          calc L < p * us i * partialProd us (i + 1) t' := hgt t' (by omega)
            _ = p * (us i * partialProd us (i + 1) t') := by ring

/-- The Knuth characterization of `Generator.Poisson` for every positive
rate: a successful run returns `r` and the next stream position
`i + r + 1` where `r + 1` is the least number of fresh uniforms whose
running product drops to `e^-lambda` or below; this holds for all
`lambda > 0`, with no separate branch at `lambda >= 30`. -/
def poissonKnuthProp : Prop :=
  ∀ (lam : ℝ) (us : ℕ → ℝ) (i fuel r j : ℕ), 0 < lam →
    poisson lam us i fuel = .ok (some (r, j)) →
    j = i + r + 1 ∧ partialProd us i (r + 1) ≤ Real.exp (-lam) ∧
    ∀ t, t ≤ r → Real.exp (-lam) < partialProd us i t

lemma poisson_thirty_eval :
    poisson 30 (fun _ => 0) 0 2 = .ok (some (0, 1)) := by
  have h1 : ¬ ((1 : ℝ) ≤ Real.exp (-30)) := by
    have h2 := Real.exp_lt_one_iff.mpr (by norm_num : (-30 : ℝ) < 0)
    linarith
  have h3 : (1 : ℝ) * (fun _ => (0 : ℝ)) 0 ≤ Real.exp (-30) := by
    simpa using (Real.exp_pos (-30)).le
  unfold poisson
  rw [if_neg (by norm_num)]
  unfold poissonLoop
  rw [if_neg h1]
  unfold poissonLoop
  rw [if_pos h3]

/-- Modelled from the spec: for `lambda >= 30` the sampler is claimed to
run a transformed-rejection (PTRS) loop in which every iteration draws a
continuous proposal and then a separate acceptance uniform for the
log-domain test, redrawing until acceptance — so any successful call at
`lambda >= 30` consumes at least two uniform draws. -/
def specPoissonPTRSMinDraws : Prop :=
  ∀ r j, poisson 30 (fun _ => 0) 0 2 = .ok (some (r, j)) → 2 ≤ j

/-- C3 (counterexample): at `lambda = 30` — inside the claimed PTRS regime
— the code returns after consuming a single uniform draw (the stream
position advances from 0 to 1), because the only algorithm present is
Knuth's product loop, which exits as soon as `p = 1 * u = 0 ≤ e^-30`.
A proposal-plus-acceptance rejection sampler cannot succeed on one draw. -/
theorem poisson_ptrs_counterexample : ¬ specPoissonPTRSMinDraws := by
  intro h
  have := h 0 1 poisson_thirty_eval
  omega

/-- C3 (amended): `Generator.Poisson` runs Knuth's product-of-uniforms
algorithm for every `lambda > 0`; the `lambda >= 30` regime runs the very
same loop — the code has no PTRS branch and no crossover at 30. -/
theorem poisson_knuth_all_lambda : poissonKnuthProp := by
  intro lam us i fuel r j hlam h
  unfold poisson at h
  rw [if_neg (not_le.mpr hlam)] at h
  have h2 : poissonLoop (Real.exp (-lam)) us fuel 0 i 1 = some (r, j) := by
    simpa using h
  obtain ⟨m, hj, hr, hle, hgt⟩ := poissonLoop_char _ us fuel 0 i 1 r j h2
  have hL1 : Real.exp (-lam) < 1 :=
    Real.exp_lt_one_iff.mpr (by linarith)
  have hm : 0 < m := by
    rcases Nat.eq_zero_or_pos m with rfl | hpos
    · exfalso
      have h0 : (1 : ℝ) * partialProd us i 0 ≤ Real.exp (-lam) := hle
      rw [show partialProd us i 0 = 1 from rfl] at h0
      linarith
    · exact hpos
  have hm' : m = r + 1 := by omega
  subst hm'
  refine ⟨by omega, by simpa using hle, ?_⟩
  intro t ht
  have := hgt t (by omega)
  simpa using this

/-- C3 (witness): the Knuth characterization applied at `lambda = 30` on
the all-zero stream: the run returns `0` from a single draw whose product
`0` is at or below `e^-30`, while the empty product `1` is above it. -/
theorem poisson_knuth_all_lambda_witness :
    (0 : ℝ) < 30 ∧
    (1 = 0 + 0 + 1 ∧
      partialProd (fun _ => 0) 0 (0 + 1) ≤ Real.exp (-30) ∧
      ∀ t, t ≤ 0 → Real.exp (-30) < partialProd (fun _ => 0) 0 t) :=
  ⟨by norm_num,
    poisson_knuth_all_lambda 30 (fun _ => 0) 0 2 0 1 (by norm_num)
      poisson_thirty_eval⟩

/-- The constant stream of uniforms `1/2`. -/
noncomputable def constHalf : ℕ → ℝ := fun _ => 1 / 2

/-- `math.SmallestNonzeroFloat64`, the value `Normal` substitutes for a
zero uniform before taking the logarithm. -/
noncomputable def smallestNonzeroFloat64 : ℝ := 2 ^ (-(1074 : ℤ))

/-- `Generator.Normal` of the `dist` package: validate `sigma >= 0` (the
`math.IsNaN` guards have no real counterpart), return `mu` directly for
`sigma == 0`, otherwise draw two fresh uniforms, guard `u1 == 0`, and
return the single Box-Muller cosine deviate `mu + sigma*r*cos(theta)`.
The function keeps no state between calls: the sine deviate is never
computed and nothing is cached. -/
noncomputable def normalStep (mu sigma : ℝ) (us : ℕ → ℝ) (i : ℕ) :
    Except CoreErr (ℝ × ℕ) :=
  if sigma < 0 then .error .invalidParam
  else if sigma = 0 then .ok (mu, i)
  else
    let u1 := us i
    let u2 := us (i + 1)
    let u1g := if u1 = 0 then smallestNonzeroFloat64 else u1
    let r := Real.sqrt (-2 * Real.log u1g)
    let theta := 2 * Real.pi * u2
    .ok (mu + sigma * (r * Real.cos theta), i + 2)

lemma normalStep_eval (mu sigma : ℝ) (us : ℕ → ℝ) (i : ℕ)
    (hs : 0 < sigma) (hu : us i ≠ 0) :
    normalStep mu sigma us i =
      .ok (mu + sigma * (Real.sqrt (-2 * Real.log (us i)) *
        Real.cos (2 * Real.pi * us (i + 1))), i + 2) := by
  unfold normalStep
  rw [if_neg (not_lt.mpr hs.le), if_neg (ne_of_gt hs)]
  simp only [if_neg hu]

/-- Modelled from the spec: two consecutive successful `Normal` calls with
`sigma > 0` are claimed to consume only two uniform draws in total (the
second call returning the cached sine deviate), so on the constant-half
stream the second call starting where the first ended must leave the
stream position at 2. -/
def specNormalTwoCallsTwoDraws : Prop :=
  ∀ v1 j1 v2 j2, normalStep 0 1 constHalf 0 = .ok (v1, j1) →
    normalStep 0 1 constHalf j1 = .ok (v2, j2) → j2 = 2

/-- C5 (counterexample): the first `Normal(0,1)` call on the constant-half
stream consumes the two uniforms at positions 0 and 1, and the second call
consumes two more at positions 2 and 3, ending at position 4, not 2: the
code computes only the cosine deviate and caches nothing, so two
consecutive calls cost four draws, not two. -/
theorem normal_cache_counterexample : ¬ specNormalTwoCallsTwoDraws := by
  intro h
  have hhalf : ∀ n, constHalf n ≠ 0 := by
    intro n
    norm_num [constHalf]
  have h1 := normalStep_eval 0 1 constHalf 0 (by norm_num) (hhalf 0)
  have h2 := normalStep_eval 0 1 constHalf 2 (by norm_num) (hhalf 2)
  have := h _ _ _ _ h1 h2
  omega

/-- The draw-accounting of `Generator.Normal`: every successful call with
`sigma > 0` consumes exactly two fresh uniforms and returns the cosine
Box-Muller deviate of its own pair; in particular two consecutive calls
consume four draws, the second returning the cosine deviate of the third
and fourth uniforms rather than a cached sine deviate of the first two. -/
def normalTwoDrawsProp : Prop :=
  ∀ (mu sigma : ℝ) (us : ℕ → ℝ) (i : ℕ), 0 < sigma →
    us i ≠ 0 → us (i + 2) ≠ 0 →
    normalStep mu sigma us i =
      .ok (mu + sigma * (Real.sqrt (-2 * Real.log (us i)) *
        Real.cos (2 * Real.pi * us (i + 1))), i + 2) ∧
    normalStep mu sigma us (i + 2) =
      .ok (mu + sigma * (Real.sqrt (-2 * Real.log (us (i + 2))) *
        Real.cos (2 * Real.pi * us (i + 3))), i + 4)

/-- C5 (amended): `Normal` computes only the cosine deviate from two fresh
uniforms per call and caches nothing; two consecutive successful calls
with `sigma > 0` consume four uniform draws in total. -/
theorem normal_two_draws_per_call : normalTwoDrawsProp := by
  intro mu sigma us i hs h0 h2
  refine ⟨normalStep_eval mu sigma us i hs h0, ?_⟩
  have h := normalStep_eval mu sigma us (i + 2) hs h2
  have e1 : i + 2 + 1 = i + 3 := by omega
  have e2 : i + 2 + 2 = i + 4 := by omega
  rw [e1, e2] at h
  exact h

/-- C5 (witness): the draw-accounting property at `Normal(0,1)` on the
constant-half stream starting at position 0. -/
theorem normal_two_draws_per_call_witness :
    (0 : ℝ) < 1 ∧ constHalf 0 ≠ 0 ∧ constHalf 2 ≠ 0 ∧
    (normalStep 0 1 constHalf 0 =
      .ok (0 + 1 * (Real.sqrt (-2 * Real.log (constHalf 0)) *
        Real.cos (2 * Real.pi * constHalf 1)), 0 + 2) ∧
     normalStep 0 1 constHalf (0 + 2) =
      .ok (0 + 1 * (Real.sqrt (-2 * Real.log (constHalf (0 + 2))) *
        Real.cos (2 * Real.pi * constHalf (0 + 3))), 0 + 4)) :=
  ⟨by norm_num, by norm_num [constHalf], by norm_num [constHalf],
    normal_two_draws_per_call 0 1 constHalf 0 (by norm_num)
      (by norm_num [constHalf]) (by norm_num [constHalf])⟩

/-- The rejection loop of `Generator.gammaRejection` ("a simplified
implementation", per the code): draw a pair of uniforms `u, v`, set
`x = -ln u`, accept when `v <= x^(alpha-1)` and return `x / beta`,
otherwise redraw the pair. -/
noncomputable def gammaRejectionLoop (alpha beta : ℝ) (us : ℕ → ℝ) :
    ℕ → ℕ → Option (ℝ × ℕ)
  | 0, _ => none
  | fuel + 1, i =>
    if us (i + 1) ≤ (-Real.log (us i)) ^ (alpha - 1) then
      some (-Real.log (us i) / beta, i + 2)
    else gammaRejectionLoop alpha beta us fuel (i + 2)

/-- `Generator.Gamma`: validate `alpha, beta > 0`; for `alpha >= 1` run the
simplified rejection loop; for `alpha < 1` draw one uniform `u`, run the
loop at `alpha + 1`, and scale the result by `u^(1/alpha)`. -/
noncomputable def gammaSample (alpha beta : ℝ) (us : ℕ → ℝ) (i fuel : ℕ) :
    Except CoreErr (Option (ℝ × ℕ)) :=
  if alpha ≤ 0 ∨ beta ≤ 0 then .error .invalidParam
  else if 1 ≤ alpha then .ok (gammaRejectionLoop alpha beta us fuel i)
  else .ok ((gammaRejectionLoop (alpha + 1) beta us fuel (i + 1)).map
    (fun p => (p.1 * us i ^ (1 / alpha), p.2)))

/-- Modelled from the spec: the standard-normal deviate the claimed
Marsaglia-Tsang loop draws, obtained from one Box-Muller pair of
uniforms. -/
noncomputable def specBoxMuller (us : ℕ → ℝ) (i : ℕ) : ℝ :=
  Real.sqrt (-2 * Real.log (us i)) * Real.cos (2 * Real.pi * us (i + 1))

/-- Modelled from the spec: the Marsaglia-Tsang loop the claim describes
for `alpha >= 1` — `d = alpha - 1/3`, `c = 1/sqrt(9d)`; per iteration draw
a standard normal `x` (one Box-Muller pair), compute `v = (1+cx)^3`,
reject `v <= 0`, draw a uniform `u`, accept when `u < 1 - 0.0331 x^4` or
when the exact log-domain test holds, returning `d*v/beta`. -/
noncomputable def specGammaMT (alpha beta : ℝ) (us : ℕ → ℝ) :
    ℕ → ℕ → Option (ℝ × ℕ)
  | 0, _ => none
  | fuel + 1, i =>
    if (1 + 1 / Real.sqrt (9 * (alpha - 1 / 3)) * specBoxMuller us i)
        ^ (3 : ℕ) ≤ 0 then
      specGammaMT alpha beta us fuel (i + 2)
    else if us (i + 2) < 1 - 0.0331 * specBoxMuller us i ^ (4 : ℕ) then
      some ((alpha - 1 / 3) *
        (1 + 1 / Real.sqrt (9 * (alpha - 1 / 3)) * specBoxMuller us i)
          ^ (3 : ℕ) / beta, i + 3)
    else if Real.log (us (i + 2)) < specBoxMuller us i ^ (2 : ℕ) / 2 +
        (alpha - 1 / 3) *
          (1 - (1 + 1 / Real.sqrt (9 * (alpha - 1 / 3)) *
            specBoxMuller us i) ^ (3 : ℕ) +
           Real.log ((1 + 1 / Real.sqrt (9 * (alpha - 1 / 3)) *
            specBoxMuller us i) ^ (3 : ℕ))) then
      some ((alpha - 1 / 3) *
        (1 + 1 / Real.sqrt (9 * (alpha - 1 / 3)) * specBoxMuller us i)
          ^ (3 : ℕ) / beta, i + 3)
    else specGammaMT alpha beta us fuel (i + 3)

lemma gammaRejection_constHalf_eval :
    gammaRejectionLoop 1 1 constHalf 1 0 =
      some (-Real.log (constHalf 0) / 1, 2) := by
  unfold gammaRejectionLoop
  rw [if_pos]
  rw [show (1 : ℝ) - 1 = 0 by norm_num, Real.rpow_zero]
  norm_num [constHalf]

lemma gammaSample_constHalf_eval :
    gammaSample 1 1 constHalf 0 1 =
      .ok (some (-Real.log (constHalf 0) / 1, 2)) := by
  unfold gammaSample
  rw [if_neg (by norm_num), if_pos le_rfl, gammaRejection_constHalf_eval]

lemma specBoxMuller_constHalf :
    specBoxMuller constHalf 0 = -Real.sqrt (2 * Real.log 2) := by
  unfold specBoxMuller constHalf
  have h1 : -2 * Real.log ((1 : ℝ) / 2) = 2 * Real.log 2 := by
    rw [show ((1 : ℝ) / 2) = 2⁻¹ by norm_num, Real.log_inv]
    ring
  have h2 : 2 * Real.pi * ((1 : ℝ) / 2) = Real.pi := by ring
  rw [h1, h2, Real.cos_pi]
  ring

lemma specGammaMT_constHalf_eval :
    (specGammaMT 1 1 constHalf 1 0).map Prod.snd = some 3 := by
  have hlog2_pos : (0 : ℝ) < Real.log 2 := Real.log_pos (by norm_num)
  have hlog2_lt : Real.log 2 < 0.6931471808 := Real.log_two_lt_d9
  set s := Real.sqrt (2 * Real.log 2) with hs
  have hs_nonneg : 0 ≤ s := Real.sqrt_nonneg _
  have hs_sq : s ^ 2 = 2 * Real.log 2 := Real.sq_sqrt (by linarith)
  have hs_lt : s < Real.sqrt 6 := by
    rw [hs]
    exact Real.sqrt_lt_sqrt (by linarith) (by linarith)
  have hsqrt6_pos : (0 : ℝ) < Real.sqrt 6 := Real.sqrt_pos.mpr (by norm_num)
  have hbase_pos : 0 < 1 + 1 / Real.sqrt 6 * (-s) := by
    have hq : s / Real.sqrt 6 < 1 := (div_lt_one hsqrt6_pos).mpr hs_lt
    have hrw : 1 / Real.sqrt 6 * (-s) = -(s / Real.sqrt 6) := by ring
    rw [hrw]
    linarith
  have hv_pos : 0 < (1 + 1 / Real.sqrt 6 * (-s)) ^ (3 : ℕ) :=
    pow_pos hbase_pos 3
  have hx4 : (-s) ^ (4 : ℕ) = (2 * Real.log 2) ^ 2 := by
    have h4 : (-s) ^ (4 : ℕ) = (s ^ 2) ^ 2 := by ring
    rw [h4, hs_sq]
  have hfast : constHalf 2 < 1 - 0.0331 * (-s) ^ (4 : ℕ) := by
    rw [hx4]
    have : (2 * Real.log 2) ^ 2 < 1.93 := by nlinarith
    norm_num [constHalf]
    nlinarith
  have h9 : (9 : ℝ) * (1 - 1 / 3) = 6 := by norm_num
  unfold specGammaMT
  rw [specBoxMuller_constHalf, h9, ← hs]
  rw [if_neg (not_le.mpr hv_pos), if_pos hfast]
  rfl

/-- C4 (counterexample): at `Gamma(1, 1)` on the constant-half stream the
code accepts its first `(u, v)` pair and returns after consuming two
uniforms (stream position 2), whereas the claimed Marsaglia-Tsang loop
accepts on its fast path after consuming three uniforms (a Box-Muller pair
for the standard normal plus the acceptance uniform, stream position 3):
the `alpha >= 1` branch the code runs is the simplified
`v <= x^(alpha-1)` rejection sampler, not Marsaglia-Tsang. -/
theorem gamma_marsaglia_tsang_counterexample :
    (gammaSample 1 1 constHalf 0 1).map (Option.map Prod.snd) =
      .ok (some 2) ∧
    (specGammaMT 1 1 constHalf 1 0).map Prod.snd = some 3 ∧
    (2 : ℕ) ≠ 3 := by
  refine ⟨?_, specGammaMT_constHalf_eval, by decide⟩
  rw [gammaSample_constHalf_eval]
  rfl

lemma gammaRejectionLoop_char (alpha beta : ℝ) (us : ℕ → ℝ) :
    ∀ fuel i r j, gammaRejectionLoop alpha beta us fuel i = some (r, j) →
      ∃ m, j = i + 2 * (m + 1) ∧
        r = -Real.log (us (i + 2 * m)) / beta ∧
        us (i + 2 * m + 1) ≤ (-Real.log (us (i + 2 * m))) ^ (alpha - 1) ∧
        ∀ t, t < m →
          ¬ (us (i + 2 * t + 1) ≤ (-Real.log (us (i + 2 * t))) ^ (alpha - 1))
    := by
  intro fuel
  induction fuel with
  | zero => intro i r j h; simp [gammaRejectionLoop] at h
  | succ f ih =>
    intro i r j h
    unfold gammaRejectionLoop at h
    by_cases hc : us (i + 1) ≤ (-Real.log (us i)) ^ (alpha - 1)
    · rw [if_pos hc] at h
      have h' : -Real.log (us i) / beta = r ∧ i + 2 = j := by
        simpa [Prod.ext_iff] using h
      obtain ⟨rfl, rfl⟩ := h'
      refine ⟨0, by omega, by norm_num, by simpa using hc, ?_⟩
      intro t ht
      omega
    · rw [if_neg hc] at h
      obtain ⟨m, hj, hr, hacc, hrej⟩ := ih (i + 2) r j h
      have e0 : i + 2 + 2 * m = i + 2 * (m + 1) := by omega
      rw [e0] at hr hacc
      refine ⟨m + 1, by omega, hr, hacc, ?_⟩
      intro t ht
      match t with
      | 0 => simpa using hc
      | t' + 1 =>
        have := hrej t' (by omega)
        have e1 : i + 2 + 2 * t' = i + 2 * (t' + 1) := by omega
        rw [e1] at this
        exact this

/-- The behaviour of `Generator.Gamma` as implemented: for `alpha >= 1`
a successful run accepts the first uniform pair `(u, v)` (at stream offset
`2m` after `m` rejected pairs) with `v <= (-ln u)^(alpha-1)` and returns
`-ln u / beta`; for `0 < alpha < 1` it draws one uniform `u`, runs the
same loop at `alpha + 1`, and scales that result by `u^(1/alpha)`. -/
def gammaCodeProp : Prop :=
  (∀ (alpha beta : ℝ) (us : ℕ → ℝ) (i fuel : ℕ) (r : ℝ) (j : ℕ),
    1 ≤ alpha → gammaSample alpha beta us i fuel = .ok (some (r, j)) →
    ∃ m, j = i + 2 * (m + 1) ∧
      r = -Real.log (us (i + 2 * m)) / beta ∧
      us (i + 2 * m + 1) ≤ (-Real.log (us (i + 2 * m))) ^ (alpha - 1) ∧
      ∀ t, t < m →
        ¬ (us (i + 2 * t + 1) ≤ (-Real.log (us (i + 2 * t))) ^ (alpha - 1)))
  ∧
  (∀ (alpha beta : ℝ) (us : ℕ → ℝ) (i fuel : ℕ) (r : ℝ) (j : ℕ),
    0 < alpha → alpha < 1 →
    gammaSample alpha beta us i fuel = .ok (some (r, j)) →
    ∃ g1, gammaRejectionLoop (alpha + 1) beta us fuel (i + 1) =
        some (g1, j) ∧
      r = g1 * us i ^ (1 / alpha))

/-- C4 (amended): `Generator.Gamma` for `alpha >= 1` is the simplified
two-uniform rejection sampler accepting on `v <= (-ln u)^(alpha-1)` and
returning `-ln u / beta`; the `alpha < 1` boosting branch draws `u`,
samples the loop at `alpha + 1`, and scales by `u^(1/alpha)` (as the claim
said).  No Marsaglia-Tsang step (`d = alpha - 1/3`, normal draw,
`(1+cx)^3`, `0.0331 x^4` squeeze) occurs. -/
theorem gamma_rejection_characterized : gammaCodeProp := by
  constructor
  · intro alpha beta us i fuel r j hal h
    unfold gammaSample at h
    by_cases hv : alpha ≤ 0 ∨ beta ≤ 0
    · rw [if_pos hv] at h
      exact absurd h (by simp)
    · rw [if_neg hv, if_pos hal] at h
      have h2 : gammaRejectionLoop alpha beta us fuel i = some (r, j) := by
        simpa using h
      exact gammaRejectionLoop_char alpha beta us fuel i r j h2
  · intro alpha beta us i fuel r j hal0 hal1 h
    unfold gammaSample at h
    by_cases hv : alpha ≤ 0 ∨ beta ≤ 0
    · rw [if_pos hv] at h
      exact absurd h (by simp)
    rw [if_neg hv, if_neg (not_le.mpr hal1)] at h
    have h2 : (gammaRejectionLoop (alpha + 1) beta us fuel (i + 1)).map
        (fun p => (p.1 * us i ^ (1 / alpha), p.2)) = some (r, j) := by
      simpa using h
    obtain ⟨⟨g1, j'⟩, hloop, hmap⟩ := Option.map_eq_some'.mp h2
    have h3 : g1 * us i ^ (1 / alpha) = r ∧ j' = j := by
      simpa [Prod.ext_iff] using hmap
    obtain ⟨hr, rfl⟩ := h3
    exact ⟨g1, hloop, hr.symm⟩

/-- C4 (witness): the `alpha >= 1` characterization applied at
`Gamma(1, 1)` on the constant-half stream: the first pair is accepted
(`1/2 <= (-ln(1/2))^0 = 1`) and the call returns `-ln(1/2)` after two
draws. -/
theorem gamma_rejection_characterized_witness :
    (1 : ℝ) ≤ 1 ∧
    (∃ m, 2 = 0 + 2 * (m + 1) ∧
      -Real.log (constHalf 0) / 1 =
        -Real.log (constHalf (0 + 2 * m)) / 1 ∧
      constHalf (0 + 2 * m + 1) ≤
        (-Real.log (constHalf (0 + 2 * m))) ^ ((1 : ℝ) - 1) ∧
      ∀ t, t < m →
        ¬ (constHalf (0 + 2 * t + 1) ≤
          (-Real.log (constHalf (0 + 2 * t))) ^ ((1 : ℝ) - 1))) :=
  ⟨le_rfl,
    gamma_rejection_characterized.1 1 1 constHalf 0 1
      (-Real.log (constHalf 0) / 1) 2 le_rfl gammaSample_constHalf_eval⟩

/-- The inner retry of `WeightedSample`: draw a uniform, retrying while it
is exactly 0, so the accepted draw lies in `(0, 1)`. -/
noncomputable def drawPos (us : ℕ → ℝ) : ℕ → ℕ → Option (ℝ × ℕ)
  | 0, _ => none
  | fuel + 1, i =>
    if 0 < us i then some (us i, i + 1) else drawPos us fuel (i + 1)

/-- The key-building loop of `collection.WeightedSample`: walk the weights
in order, reject negative (or, in Go, NaN/infinite) weights, skip
zero-weight items entirely, and give every positive-weight item the
Efraimidis-Spirakis key `-ln(u)/w` paired with its index. -/
noncomputable def buildKeys (us : ℕ → ℝ) (fuel : ℕ) :
    List ℝ → ℕ → ℕ → Except CoreErr (List (ℝ × ℕ) × ℕ)
  | [], _, i => .ok ([], i)
  | w :: ws, idx, i =>
    if w < 0 then .error .invalidWeights
    else if w = 0 then buildKeys us fuel ws (idx + 1) i
    else
      match drawPos us fuel i with
      | none => .error .entropyFailure
      | some (u, i2) =>
        match buildKeys us fuel ws (idx + 1) i2 with
        | .error e => .error e
        | .ok (ks, j) => .ok ((-Real.log u / w, idx) :: ks, j)

/-- The number of items with strictly positive weight. -/
noncomputable def posCount (ws : List ℝ) : ℕ :=
  ws.countP fun w => decide (0 < w)

/-- `collection.WeightedSample` at the level of selected indices
(`nItems` is `len(items)`): validate `k`, build the key list, sort it
ascending by key (`sort.Slice`), and keep the indices of the `k` smallest
keys. -/
noncomputable def weightedSampleIdx (nItems : ℕ) (ws : List ℝ) (k : ℤ)
    (us : ℕ → ℝ) (fuel : ℕ) : Except CoreErr (List ℕ) :=
  if k < 0 then .error .invalidN
  else if k = 0 then .ok []
  else if nItems = 0 then .error .emptyItems
  else if nItems ≠ ws.length then .error .weightsMismatch
  else
    match buildKeys us fuel ws 0 0 with
    | .error e => .error e
    | .ok (keys, _) =>
      if keys.length = 0 then .error .invalidWeights
      else if (keys.length : ℤ) < k then .error .sampleTooLarge
      else .ok
        (((keys.mergeSort fun a b => decide (a.1 ≤ b.1)).take k.toNat).map
          Prod.snd)

lemma buildKeys_ok (us : ℕ → ℝ) (fuel : ℕ) (hus : ∀ n, 0 < us n)
    (hfuel : 0 < fuel) :
    ∀ (ws : List ℝ) (idx i : ℕ), (∀ w ∈ ws, 0 ≤ w) →
      ∃ ks j, buildKeys us fuel ws idx i = .ok (ks, j) ∧
        ks.length = posCount ws ∧
        (ks.map Prod.snd).Pairwise (· < ·) ∧
        ∀ p ∈ ks, idx ≤ p.2 ∧ ∃ w, ws[p.2 - idx]? = some w ∧ 0 < w := by
  intro ws
  induction ws with
  | nil =>
    intro idx i _
    exact ⟨[], i, rfl, by simp [posCount], by simp, by simp⟩
  | cons w ws ih =>
    intro idx i hw
    have hw0 : 0 ≤ w := hw w (List.mem_cons_self w ws)
    have hwtail : ∀ x ∈ ws, 0 ≤ x :=
      fun x hx => hw x (List.mem_cons_of_mem w hx)
    by_cases hz : w = 0
    · obtain ⟨ks, j, hrec, hlen, hpair, hmem⟩ := ih (idx + 1) i hwtail
      refine ⟨ks, j, ?_, ?_, hpair, ?_⟩
      · unfold buildKeys
        rw [if_neg (not_lt.mpr hw0), if_pos hz]
        exact hrec
      · rw [hlen]
        simp [posCount, List.countP_cons, hz]
      · intro p hp
        obtain ⟨hidx, w', hw', hwpos⟩ := hmem p hp
        refine ⟨by omega, w', ?_, hwpos⟩
        have harith : p.2 - idx = (p.2 - (idx + 1)) + 1 := by omega
        rw [harith, List.getElem?_cons_succ]
        exact hw'
    · have hwpos : 0 < w := lt_of_le_of_ne hw0 (Ne.symm hz)
      obtain ⟨f, rfl⟩ : ∃ f, fuel = f + 1 := ⟨fuel - 1, by omega⟩
      have hdraw : drawPos us (f + 1) i = some (us i, i + 1) := by
        unfold drawPos
        rw [if_pos (hus i)]
      obtain ⟨ks, j, hrec, hlen, hpair, hmem⟩ := ih (idx + 1) (i + 1) hwtail
      refine ⟨(-Real.log (us i) / w, idx) :: ks, j, ?_, ?_, ?_, ?_⟩
      · unfold buildKeys
        rw [if_neg (not_lt.mpr hw0), if_neg hz, hdraw]
        simp only [hrec]
      · simp only [List.length_cons, hlen, posCount, List.countP_cons]
        rw [if_pos (by simpa using hwpos)]
      · rw [List.map_cons, List.pairwise_cons]
        constructor
        · intro b hb
          obtain ⟨p, hp, rfl⟩ := List.mem_map.mp hb
          have := (hmem p hp).1
          omega
        · exact hpair
      · intro p hp
        rcases List.mem_cons.mp hp with rfl | hp'
        · exact ⟨le_rfl, w, by simp, hwpos⟩
        · obtain ⟨hidx, w', hw', hwpos'⟩ := hmem p hp'
          refine ⟨by omega, w', ?_, hwpos'⟩
          have harith : p.2 - idx = (p.2 - (idx + 1)) + 1 := by omega
          rw [harith, List.getElem?_cons_succ]
          exact hw'

/-- The selection contract of `collection.WeightedSample`: with parallel
weights of the items' length, all weights non-negative, an entropy stream
of positive uniforms and any `k` with `0 <= k <= (number of positive
weights)`, the call succeeds and returns exactly `k` pairwise-distinct
in-bounds indices, every one carrying a positive weight; a `k` above the
positive-weight count is rejected with an error. -/
def weightedSampleProp : Prop :=
  ∀ (nItems : ℕ) (ws : List ℝ) (k : ℤ) (us : ℕ → ℝ) (fuel : ℕ),
    (∀ n, 0 < us n) → 0 < fuel → nItems = ws.length →
    (∀ w ∈ ws, 0 ≤ w) → 0 ≤ k →
    ((k ≤ (posCount ws : ℤ) →
      ∃ idxs, weightedSampleIdx nItems ws k us fuel = .ok idxs ∧
        idxs.length = k.toNat ∧ idxs.Nodup ∧
        ∀ id ∈ idxs, id < nItems ∧ ∃ w, ws[id]? = some w ∧ 0 < w) ∧
     ((posCount ws : ℤ) < k →
      ∃ e, weightedSampleIdx nItems ws k us fuel = .error e))

/-- C8: the selection contract holds. -/
theorem weightedSample_distinct_positive : weightedSampleProp := by
  intro nItems ws k us fuel hus hfuel hlen hw hk0
  constructor
  · intro hk
    by_cases hkz : k = 0
    · subst hkz
      refine ⟨[], ?_, by simp, by simp, by simp⟩
      unfold weightedSampleIdx
      rw [if_neg (by omega), if_pos rfl]
    · have hk1 : 1 ≤ k := by omega
      have hpc1 : 1 ≤ (posCount ws : ℤ) := le_trans hk1 hk
      have hpc1n : 1 ≤ posCount ws := by exact_mod_cast hpc1
      have hn0 : nItems ≠ 0 := by
        intro h0
        rw [h0] at hlen
        have : ws = [] := List.length_eq_zero.mp hlen.symm
        rw [this] at hpc1n
        simp [posCount] at hpc1n
      obtain ⟨ks, j, hbk, hlenks, hpair, hmem⟩ :=
        buildKeys_ok us fuel hus hfuel ws 0 0 hw
      have hkle : k.toNat ≤ ks.length := by rw [hlenks]; omega
      have hksne : ¬ (ks.length = 0) := by rw [hlenks]; omega
      have hknotlt : ¬ ((ks.length : ℤ) < k) := by rw [hlenks]; omega
      unfold weightedSampleIdx
      rw [if_neg (by omega), if_neg hkz, if_neg hn0, if_neg (by omega)]
      simp only [hbk]
      rw [if_neg hksne, if_neg hknotlt]
      have hperm : (ks.mergeSort fun a b => decide (a.1 ≤ b.1)).Perm ks :=
        List.mergeSort_perm ks _
      have hsortlen :
          (ks.mergeSort fun a b => decide (a.1 ≤ b.1)).length = ks.length :=
        hperm.length_eq
      refine ⟨_, rfl, ?_, ?_, ?_⟩
      · rw [List.length_map, List.length_take, hsortlen]
        omega
      · have h1 : (ks.map Prod.snd).Nodup :=
          hpair.imp (fun h => ne_of_lt h)
        have h2 : ((ks.mergeSort fun a b => decide (a.1 ≤ b.1)).map
            Prod.snd).Nodup := ((hperm.map Prod.snd).nodup_iff).mpr h1
        rw [List.map_take]
        exact h2.sublist (List.take_sublist _ _)
      · intro id hid
        obtain ⟨p, hp, rfl⟩ := List.mem_map.mp hid
        have hp2 : p ∈ ks.mergeSort fun a b => decide (a.1 ≤ b.1) :=
          List.mem_of_mem_take hp
        have hp3 : p ∈ ks := hperm.subset hp2
        obtain ⟨-, w', hw', hwpos⟩ := hmem p hp3
        have hg : ws[p.2]? = some w' := by simpa using hw'
        have hlt : p.2 < ws.length := by
          by_contra hcon
          push_neg at hcon
          rw [List.getElem?_eq_none hcon] at hg
          exact Option.noConfusion hg
        exact ⟨by omega, w', hg, hwpos⟩
  · intro hkgt
    have hpcnn : (0 : ℤ) ≤ (posCount ws : ℤ) := by positivity
    have hk1 : 1 ≤ k := by omega
    by_cases hn0 : nItems = 0
    · refine ⟨.emptyItems, ?_⟩
      unfold weightedSampleIdx
      rw [if_neg (by omega), if_neg (by omega), if_pos hn0]
    · obtain ⟨ks, j, hbk, hlenks, -, -⟩ :=
        buildKeys_ok us fuel hus hfuel ws 0 0 hw
      by_cases hks0 : ks.length = 0
      · refine ⟨.invalidWeights, ?_⟩
        unfold weightedSampleIdx
        rw [if_neg (by omega), if_neg (by omega), if_neg hn0,
          if_neg (by omega)]
        simp only [hbk]
        rw [if_pos hks0]
      · refine ⟨.sampleTooLarge, ?_⟩
        unfold weightedSampleIdx
        rw [if_neg (by omega), if_neg (by omega), if_neg hn0,
          if_neg (by omega)]
        simp only [hbk]
        rw [if_neg hks0, if_pos (by rw [hlenks]; omega)]

/-- C8 (witness): the selection contract applied at two items with weights
`[1, 0]`, `k = 1`, the constant-half stream and fuel 1. -/
theorem weightedSample_distinct_positive_witness :
    (∀ n, 0 < constHalf n) ∧ 0 < 1 ∧ 2 = ([1, 0] : List ℝ).length ∧
    (∀ w ∈ ([1, 0] : List ℝ), 0 ≤ w) ∧ (0 : ℤ) ≤ 1 ∧
    (((1 : ℤ) ≤ (posCount [1, 0] : ℤ) →
      ∃ idxs, weightedSampleIdx 2 [1, 0] 1 constHalf 1 = .ok idxs ∧
        idxs.length = (1 : ℤ).toNat ∧ idxs.Nodup ∧
        ∀ id ∈ idxs, id < 2 ∧
          ∃ w, ([1, 0] : List ℝ)[id]? = some w ∧ 0 < w) ∧
     ((posCount [1, 0] : ℤ) < 1 →
      ∃ e, weightedSampleIdx 2 [1, 0] 1 constHalf 1 = .error e)) :=
  ⟨fun n => by norm_num [constHalf], by norm_num, by norm_num,
    by intro w hw; simp at hw; rcases hw with rfl | rfl <;> norm_num,
    by norm_num,
    weightedSample_distinct_positive 2 [1, 0] 1 constHalf 1
      (fun n => by norm_num [constHalf]) (by norm_num) (by norm_num)
      (by intro w hw; simp at hw; rcases hw with rfl | rfl <;> norm_num)
      (by norm_num)⟩
